import Mathlib

/-!
Verification of the persistent-collections library (lists, banker's queue,
leftist heap, red-black tree) against its specification.

The Rust data types are shallowly embedded: `List<T>` (src/list.rs) is the
ordinary inductive list, `BatchedQueue<T>` (src/queue.rs) is a pair of lists,
`LeftistHeap<V>` (src/heap.rs) and `RBTree<V>` (src/rbtree.rs) are inductive
trees carrying exactly the fields of the Rust structs.  `Rc` sharing is
irrelevant to functional behaviour and is dropped.  Rust's `V: Ord` becomes a
`LinearOrder` instance, and `a.cmp(&b)` becomes `cmp a b`.
-/

namespace Fundata

universe u

variable {α : Type u}

/-! ## Persistent lists (src/list.rs)

`List<T>` is `Nil | Cons(Rc<(T, List<T>)>)`, i.e. an ordinary cons list.
`reverse` walks the list pushing each element onto an accumulator that starts
out `Nil` (`result.push(first)` conses onto the front). -/

/-- `reverse` from src/list.rs: fold the input, consing each element onto an
initially empty accumulator. -/
def reverse (s : List α) : List α :=
  s.foldl (fun result first => first :: result) []

theorem reverse_eq_reverse (s : List α) : reverse s = s.reverse := by
  have h : ∀ (s acc : List α), s.foldl (fun r x => x :: r) acc = s.reverse ++ acc := by
    intro s
    induction s with
    | nil => intro acc; rfl
    | cons x xs ih => intro acc; simp [List.foldl, ih]
  simp [reverse, h s]

/-! ## The banker's queue (src/queue.rs) -/

/-- `BatchedQueue<T>`: a pair of persistent lists.  The code comments state the
invariant: if `front` is empty then `back` is empty. -/
structure BatchedQueue (α : Type u) where
  front : List α
  back : List α
deriving DecidableEq

namespace BatchedQueue

/-- `build`: assemble a queue from components, reversing `back` into `front`
when `front` is empty, to preserve the invariant. -/
def build (front back : List α) : BatchedQueue α :=
  if front.isEmpty then ⟨reverse back, []⟩ else ⟨front, back⟩

/-- `Queue::empty` for `BatchedQueue`. -/
def empty : BatchedQueue α := ⟨[], []⟩

/-- `Queue::is_empty`: checks only `front` (legal only if the invariant holds). -/
def is_empty (q : BatchedQueue α) : Bool := q.front.isEmpty

/-- `Queue::snoc`: special-cased on the empty queue; otherwise cons onto `back`. -/
def snoc (queue : BatchedQueue α) (value : α) : BatchedQueue α :=
  if queue.is_empty then ⟨[value], []⟩
  else ⟨queue.front, value :: queue.back⟩

/-- `Queue::split`: split `front`; the remainder is rebuilt with `build`. -/
def split (q : BatchedQueue α) : Option (α × BatchedQueue α) :=
  match q.front with
  | [] => none
  | first :: rest => some (first, build rest q.back)

/-- `Queue::head`: the head of `front`. -/
def head (q : BatchedQueue α) : Option α := q.front.head?

/-- `Queue::tail` (trait default): the queue part of `split`. -/
def tail (q : BatchedQueue α) : Option (BatchedQueue α) := (q.split).map (fun p => p.2)

/-- `BatchedQueue::split_into`: splits `front` directly; note that the
`Some` branch reassembles the queue without going through `build`. -/
def split_into (q : BatchedQueue α) : Option (α × BatchedQueue α) :=
  match q.front with
  | [] =>
    match reverse q.back with
    | [] => none
    | first :: rest => some (first, ⟨rest, []⟩)
  | first :: rest => some (first, ⟨rest, q.back⟩)

/-- `BatchedQueue::pop_front`: swaps `self` for the empty queue, splits the
temporary with `split_into`, and stores the remainder back.  Modelled by
explicit state passing: the returned pair is (result, new state of `self`). -/
def pop_front (q : BatchedQueue α) : Option α × BatchedQueue α :=
  match q.split_into with
  | none => (none, empty)
  | some (first, rest) => (some first, rest)

/-- The representation invariant stated in the comment at the top of
src/queue.rs: if `front` is empty, then `back` is empty. -/
def Inv (q : BatchedQueue α) : Prop := q.front = [] → q.back = []

instance (q : BatchedQueue α) [DecidableEq α] : Decidable (Inv q) := by
  unfold Inv; infer_instance

end BatchedQueue

/-- Claim C1: for every `BatchedQueue` reachable from `empty()` by the public
operations, the invariant "front is `Empty` only if back is also `Empty`"
holds.  This is FALSE of the code: `split_into` (and hence `pop_front`)
reassembles the remainder without `build`, so splitting the reachable queue
`snoc (snoc empty 1) 2 = ⟨[1], [2]⟩` leaves `⟨[], [2]⟩`, which violates the
invariant; on that state `is_empty` wrongly reports `true` and `head` wrongly
reports `none` even though the element `2` is still stored, and a further
`snoc` drops `2` entirely.  This theorem evaluates the code at that input. -/
theorem C1_split_into_breaks_invariant :
    BatchedQueue.split_into (BatchedQueue.snoc (BatchedQueue.snoc BatchedQueue.empty (1 : Int)) 2)
        = some (1, ⟨[], [2]⟩) ∧
    ¬ BatchedQueue.Inv (⟨[], [2]⟩ : BatchedQueue Int) ∧
    BatchedQueue.is_empty (⟨[], [2]⟩ : BatchedQueue Int) = true ∧
    BatchedQueue.head (⟨[], [2]⟩ : BatchedQueue Int) = none ∧
    BatchedQueue.snoc (⟨[], [2]⟩ : BatchedQueue Int) 3 = ⟨[3], []⟩ := by
  decide

/-- Claim C4: starting from the empty queue, `snoc v1, v2, v3` followed by
three `split`s yields `v1`, `v2`, `v3` in insertion (FIFO) order, and a fourth
`split` returns `none`. -/
theorem C4_queue_fifo (v1 v2 v3 : α) :
    BatchedQueue.split (BatchedQueue.snoc (BatchedQueue.snoc
        (BatchedQueue.snoc BatchedQueue.empty v1) v2) v3)
      = some (v1, ⟨[v2, v3], []⟩) ∧
    BatchedQueue.split (⟨[v2, v3], []⟩ : BatchedQueue α) = some (v2, ⟨[v3], []⟩) ∧
    BatchedQueue.split (⟨[v3], []⟩ : BatchedQueue α) = some (v3, ⟨[], []⟩) ∧
    BatchedQueue.split (⟨[], []⟩ : BatchedQueue α) = none := by
  refine ⟨?_, ?_, ?_, rfl⟩ <;> rfl

/-! ## Leftist heaps (src/heap.rs)

`HeapImpl<V>` is `Empty | NonEmpty(Rc<HeapNode<V>>)` where a `HeapNode` stores
a `rank: usize`, a value, and two child heaps.  The stored rank field is part
of the representation (claim C5 is about it), so the embedding carries it. -/

inductive LeftistHeap (α : Type u) : Type u where
  | empty : LeftistHeap α
  | node (rank : Nat) (value : α) (left right : LeftistHeap α) : LeftistHeap α
deriving DecidableEq

namespace LeftistHeap

/-- `HeapImpl::rank`: the stored rank field, `0` for `Empty`. -/
def rank : LeftistHeap α → Nat
  | .empty => 0
  | .node r _ _ _ => r

/-- `make_heap`: put the higher-rank child on the left and store rank
`1 + rank(lower-rank child)`. -/
def make_heap (x : α) (a b : LeftistHeap α) : LeftistHeap α :=
  if rank a ≥ rank b then .node (rank b + 1) x a b
  else .node (rank a + 1) x b a

/-- Number of stored elements (specification-level measure). -/
def size : LeftistHeap α → Nat
  | .empty => 0
  | .node _ _ l r => size l + size r + 1

/-- `Heap::merge`: the root with the smaller value (first heap wins ties,
since the branch is taken only when `cmp == Greater`) keeps its left child and
merges its right child with the whole other heap. -/
def merge [LinearOrder α] : LeftistHeap α → LeftistHeap α → LeftistHeap α
  | .empty, h => h
  | h, .empty => h
  | .node k1 v1 l1 r1, .node k2 v2 l2 r2 =>
    if cmp v1 v2 = Ordering.gt then
      make_heap v2 l2 (merge (.node k1 v1 l1 r1) r2)
    else
      make_heap v1 l1 (merge r1 (.node k2 v2 l2 r2))
termination_by h1 h2 => size h1 + size h2
decreasing_by
  · simp [size]; omega
  · simp [size]; omega

/-- `Heap::insert`: merge with a singleton node of stored rank 1. -/
def insert [LinearOrder α] (h : LeftistHeap α) (value : α) : LeftistHeap α :=
  merge h (.node 1 value .empty .empty)

/-- `Heap::min`: the root value, if any. -/
def min : LeftistHeap α → Option α
  | .empty => none
  | .node _ v _ _ => some v

/-- `Heap::without_min`: merge the root's children. -/
def without_min [LinearOrder α] : LeftistHeap α → LeftistHeap α
  | .empty => .empty
  | .node _ _ l r => merge l r

/-- `Heap::is_empty`. -/
def is_empty : LeftistHeap α → Bool
  | .empty => true
  | _ => false

/-- The elements of a heap, as a list (root first, then left and right
subtree contents). -/
def toList : LeftistHeap α → List α
  | .empty => []
  | .node _ v l r => v :: (toList l ++ toList r)

/-- The multiset of elements of a heap. -/
def elems (h : LeftistHeap α) : Multiset α := (toList h : Multiset α)

@[simp] theorem elems_empty : elems (.empty : LeftistHeap α) = 0 := rfl

@[simp] theorem elems_node (k : Nat) (v : α) (l r : LeftistHeap α) :
    elems (.node k v l r) = v ::ₘ (elems l + elems r) := by
  simp [elems, toList]

theorem elems_make_heap (x : α) (a b : LeftistHeap α) :
    elems (make_heap x a b) = x ::ₘ (elems a + elems b) := by
  unfold make_heap
  split <;> simp [add_comm]

theorem size_make_heap (x : α) (a b : LeftistHeap α) :
    size (make_heap x a b) = size a + size b + 1 := by
  unfold make_heap
  split
  · simp [size]
  · simp [size]; omega

@[simp] theorem merge_empty_left [LinearOrder α] (h : LeftistHeap α) :
    merge .empty h = h := by
  cases h <;> simp [merge]

@[simp] theorem merge_empty_right [LinearOrder α] (h : LeftistHeap α) :
    merge h .empty = h := by
  cases h <;> simp [merge]

theorem size_merge [LinearOrder α] (a b : LeftistHeap α) :
    size (merge a b) = size a + size b := by
  induction a, b using merge.induct with
  | case1 h => simp [size]
  | case2 h _ => simp [size]
  | case3 k1 v1 l1 r1 k2 v2 l2 r2 hgt ih =>
    simp only [merge, if_pos hgt, size_make_heap, ih, size]
    omega
  | case4 k1 v1 l1 r1 k2 v2 l2 r2 hgt ih =>
    simp only [merge, if_neg hgt, size_make_heap, ih, size]
    omega

theorem elems_merge [LinearOrder α] (a b : LeftistHeap α) :
    elems (merge a b) = elems a + elems b := by
  induction a, b using merge.induct with
  | case1 h => simp
  | case2 h _ => simp
  | case3 k1 v1 l1 r1 k2 v2 l2 r2 hgt ih =>
    simp only [merge, if_pos hgt, elems_make_heap, elems_node, ih]
    simp only [← Multiset.singleton_add]
    abel
  | case4 k1 v1 l1 r1 k2 v2 l2 r2 hgt ih =>
    simp only [merge, if_neg hgt, elems_make_heap, elems_node, ih]
    simp only [← Multiset.singleton_add]
    abel

/-- The leftist invariant of src/heap.rs: every node's stored rank is one more
than the stored rank of its right child, and the left child's rank is at least
the right child's. -/
inductive Leftist : LeftistHeap α → Prop where
  | empty : Leftist .empty
  | node {k : Nat} {v : α} {l r : LeftistHeap α} :
      k = rank r + 1 → rank r ≤ rank l → Leftist l → Leftist r →
      Leftist (.node k v l r)

theorem make_heap_leftist (x : α) {a b : LeftistHeap α}
    (ha : Leftist a) (hb : Leftist b) : Leftist (make_heap x a b) := by
  unfold make_heap
  split
  next h => exact .node rfl h ha hb
  next h => exact .node rfl (by omega) hb ha

theorem merge_leftist [LinearOrder α] :
    ∀ (a b : LeftistHeap α), Leftist a → Leftist b → Leftist (merge a b) := by
  intro a b
  induction a, b using merge.induct with
  | case1 h => intro _ hb; simpa using hb
  | case2 h _ => intro ha _; simpa using ha
  | case3 k1 v1 l1 r1 k2 v2 l2 r2 hgt ih =>
    intro ha hb
    cases hb with
    | node hk2 hrk2 hl2 hr2 =>
      simp only [merge, if_pos hgt]
      exact make_heap_leftist _ hl2 (ih ha hr2)
  | case4 k1 v1 l1 r1 k2 v2 l2 r2 hgt ih =>
    intro ha hb
    cases ha with
    | node hk1 hrk1 hl1 hr1 =>
      simp only [merge, if_neg hgt]
      exact make_heap_leftist _ hl1 (ih hr1 hb)

theorem insert_leftist [LinearOrder α] {h : LeftistHeap α} (hh : Leftist h) (v : α) :
    Leftist (insert h v) :=
  merge_leftist _ _ hh (.node rfl le_rfl .empty .empty)

theorem without_min_leftist [LinearOrder α] {h : LeftistHeap α} (hh : Leftist h) :
    Leftist (without_min h) := by
  cases hh with
  | empty => exact .empty
  | node hk hr hl hrr => exact merge_leftist _ _ hl hrr

/-- The heap-order invariant: every node's value is a lower bound for the
elements of both of its subtrees. -/
inductive HeapOrdered [LinearOrder α] : LeftistHeap α → Prop where
  | empty : HeapOrdered .empty
  | node {k : Nat} {v : α} {l r : LeftistHeap α} :
      (∀ y ∈ elems l, v ≤ y) → (∀ y ∈ elems r, v ≤ y) →
      HeapOrdered l → HeapOrdered r → HeapOrdered (.node k v l r)

theorem HeapOrdered.le_of_mem [LinearOrder α] {k : Nat} {v : α} {l r : LeftistHeap α}
    (h : HeapOrdered (.node k v l r)) :
    ∀ y ∈ elems (.node k v l r : LeftistHeap α), v ≤ y := by
  cases h with
  | node hl hr _ _ =>
    intro y hy
    simp only [elems_node, Multiset.mem_cons, Multiset.mem_add] at hy
    rcases hy with rfl | hy | hy
    · exact le_rfl
    · exact hl y hy
    · exact hr y hy

theorem make_heap_heapOrdered [LinearOrder α] {x : α} {a b : LeftistHeap α}
    (ha : HeapOrdered a) (hb : HeapOrdered b)
    (hxa : ∀ y ∈ elems a, x ≤ y) (hxb : ∀ y ∈ elems b, x ≤ y) :
    HeapOrdered (make_heap x a b) := by
  unfold make_heap
  split
  · exact .node hxa hxb ha hb
  · exact .node hxb hxa hb ha

theorem merge_heapOrdered [LinearOrder α] :
    ∀ (a b : LeftistHeap α), HeapOrdered a → HeapOrdered b → HeapOrdered (merge a b) := by
  intro a b
  induction a, b using merge.induct with
  | case1 h => intro _ hb; simpa using hb
  | case2 h _ => intro ha _; simpa using ha
  | case3 k1 v1 l1 r1 k2 v2 l2 r2 hgt ih =>
    intro ha hb
    have hv : v2 ≤ v1 := ((cmp_eq_gt_iff v1 v2).mp hgt).le
    cases hb with
    | node hl2 hr2 ol2 or2 =>
      simp only [merge, if_pos hgt]
      apply make_heap_heapOrdered ol2 (ih ha or2) hl2
      intro y hy
      rw [elems_merge] at hy
      rcases Multiset.mem_add.mp hy with hy | hy
      · exact hv.trans (ha.le_of_mem y hy)
      · exact hr2 y hy
  | case4 k1 v1 l1 r1 k2 v2 l2 r2 hgt ih =>
    intro ha hb
    have hv : v1 ≤ v2 := le_of_not_lt (fun hlt => hgt ((cmp_eq_gt_iff v1 v2).mpr hlt))
    cases ha with
    | node hl1 hr1 ol1 or1 =>
      simp only [merge, if_neg hgt]
      apply make_heap_heapOrdered ol1 (ih or1 hb) hl1
      intro y hy
      rw [elems_merge] at hy
      rcases Multiset.mem_add.mp hy with hy | hy
      · exact hr1 y hy
      · exact hv.trans (hb.le_of_mem y hy)

theorem insert_heapOrdered [LinearOrder α] {h : LeftistHeap α}
    (hh : HeapOrdered h) (v : α) : HeapOrdered (insert h v) :=
  merge_heapOrdered _ _ hh (.node (by simp) (by simp) .empty .empty)

theorem without_min_heapOrdered [LinearOrder α] {h : LeftistHeap α}
    (hh : HeapOrdered h) : HeapOrdered (without_min h) := by
  cases hh with
  | empty => exact .empty
  | node hl hr ol or => exact merge_heapOrdered _ _ ol or

/-- Repeatedly read the minimum and remove it with `without_min` until the
heap is empty, collecting the values read: at a non-empty node `min` returns
the root value and `without_min` merges the two children. -/
def drain [LinearOrder α] : LeftistHeap α → List α
  | .empty => []
  | .node k v l r => v :: drain (without_min (.node k v l r))
termination_by h => size h
decreasing_by
  simp only [without_min, size_merge, size]
  omega

theorem drain_elems [LinearOrder α] :
    ∀ (h : LeftistHeap α), ((drain h : List α) : Multiset α) = elems h := by
  intro h
  induction h using drain.induct with
  | case1 => simp [drain]
  | case2 k v l r ih =>
    simp only [without_min] at ih
    simp only [drain, without_min, ← Multiset.cons_coe, ih, elems_merge, elems_node]

theorem drain_sorted [LinearOrder α] :
    ∀ (h : LeftistHeap α), HeapOrdered h → List.Sorted (· ≤ ·) (drain h) := by
  intro h
  induction h using drain.induct with
  | case1 => intro _; simp [drain]
  | case2 k v l r ih =>
    intro hh
    cases hh with
    | node hl hr ol or =>
      simp only [drain, without_min] at ih ⊢
      rw [List.sorted_cons]
      refine ⟨?_, ih (merge_heapOrdered l r ol or)⟩
      intro b hb
      have hb' : b ∈ elems (merge l r) := by
        rw [← drain_elems]
        exact Multiset.mem_coe.mpr hb
      rw [elems_merge] at hb'
      rcases Multiset.mem_add.mp hb' with hb' | hb'
      · exact hl b hb'
      · exact hr b hb'

end LeftistHeap

/-- A single step of claim C3's operation sequences: an insertion or a
minimum removal. -/
inductive HeapOp (α : Type u) : Type u where
  | insert (v : α) : HeapOp α
  | without_min : HeapOp α

/-- Apply one heap operation. -/
def runOp [LinearOrder α] (h : LeftistHeap α) : HeapOp α → LeftistHeap α
  | .insert v => h.insert v
  | .without_min => h.without_min

/-- Run a sequence of insertions interleaved with `without_min`s from the
empty heap. -/
def runOps [LinearOrder α] (ops : List (HeapOp α)) : LeftistHeap α :=
  ops.foldl runOp .empty

theorem runOps_heapOrdered [LinearOrder α] (ops : List (HeapOp α)) :
    LeftistHeap.HeapOrdered (runOps ops) := by
  have aux : ∀ (ops : List (HeapOp α)) (h : LeftistHeap α),
      LeftistHeap.HeapOrdered h → LeftistHeap.HeapOrdered (ops.foldl runOp h) := by
    intro ops
    induction ops with
    | nil => exact fun h hh => hh
    | cons op ops ih =>
      intro h hh
      apply ih
      cases op with
      | insert v => exact LeftistHeap.insert_heapOrdered hh v
      | without_min => exact LeftistHeap.without_min_heapOrdered hh
  exact aux ops .empty .empty

/-- Claim C3: for every sequence of insertions interleaved with `without_min`,
starting from the empty heap, repeatedly reading the minimum and removing it
until the heap is empty yields exactly the ascending sort of the values still
present in the heap, duplicates preserved count-for-count. -/
theorem C3_heap_extraction_sorted [LinearOrder α] (ops : List (HeapOp α)) :
    LeftistHeap.drain (runOps ops)
      = List.insertionSort (· ≤ ·) (LeftistHeap.toList (runOps ops)) := by
  refine List.eq_of_perm_of_sorted ?_
    (LeftistHeap.drain_sorted _ (runOps_heapOrdered ops)) (List.sorted_insertionSort _ _)
  have p1 : ((LeftistHeap.drain (runOps ops) : List α) : Multiset α)
      = ((LeftistHeap.toList (runOps ops) : List α) : Multiset α) :=
    LeftistHeap.drain_elems (runOps ops)
  exact (Multiset.coe_eq_coe.mp p1).trans (List.perm_insertionSort _ _).symm

/-- A program built from the heap operations `empty`, `insert`, `merge` and
`without_min`: the trees of operation applications whose results are the
heaps "produced by any sequence" of those operations. -/
inductive HeapProg (α : Type u) : Type u where
  | empty : HeapProg α
  | insert (p : HeapProg α) (v : α) : HeapProg α
  | merge (p q : HeapProg α) : HeapProg α
  | without_min (p : HeapProg α) : HeapProg α

/-- Run a heap program to the heap it denotes. -/
def HeapProg.run [LinearOrder α] : HeapProg α → LeftistHeap α
  | .empty => .empty
  | .insert p v => (HeapProg.run p).insert v
  | .merge p q => LeftistHeap.merge (HeapProg.run p) (HeapProg.run q)
  | .without_min p => (HeapProg.run p).without_min

/-- Claim C5: every heap produced by a sequence of `empty`, `insert`, `merge`
and `without_min` operations satisfies the leftist invariant: at every
non-empty node, `rank(left) ≥ rank(right)` and the stored rank equals
`1 + rank(right child)` (with rank `0` for `Empty`). -/
theorem C5_leftist_invariant [LinearOrder α] (p : HeapProg α) :
    LeftistHeap.Leftist p.run := by
  induction p with
  | empty => exact .empty
  | insert p v ih => exact LeftistHeap.insert_leftist ih v
  | merge p q ihp ihq => exact LeftistHeap.merge_leftist _ _ ihp ihq
  | without_min p ih => exact LeftistHeap.without_min_leftist ih

/-- Claim C9: `merge(A,B)` contains exactly the multiset union of the elements
of `A` and `B` (duplicates kept), and merging with an empty heap returns the
other heap unchanged (hence in particular `merge(A, empty) == A` by content). -/
theorem C9_merge_multiset_union [LinearOrder α] (a b : LeftistHeap α) :
    LeftistHeap.elems (LeftistHeap.merge a b)
        = LeftistHeap.elems a + LeftistHeap.elems b ∧
    LeftistHeap.merge a .empty = a ∧ LeftistHeap.merge .empty b = b :=
  ⟨LeftistHeap.elems_merge a b, LeftistHeap.merge_empty_right a,
    LeftistHeap.merge_empty_left b⟩

/-- Claim C10: merging two non-empty heaps whose root values compare equal
takes the `else` branch (the test is `cmp == Greater`), so the first heap's
root becomes the root, its left child is kept, and its right child is merged
with the whole second heap. -/
theorem C10_merge_tie_first_wins [LinearOrder α] (k1 k2 : Nat) (v : α)
    (l1 r1 l2 r2 : LeftistHeap α) :
    LeftistHeap.merge (.node k1 v l1 r1) (.node k2 v l2 r2)
      = LeftistHeap.make_heap v l1 (LeftistHeap.merge r1 (.node k2 v l2 r2)) := by
  simp [LeftistHeap.merge, cmp_self_eq_eq]

/-! ## Red-black trees (src/rbtree.rs) -/

inductive Color : Type where
  | red : Color
  | black : Color
deriving DecidableEq

/-- `RBTreeImpl<V>`: empty, or a node carrying a color, a value and two
children. -/
inductive RBTree (α : Type u) : Type u where
  | empty : RBTree α
  | node (color : Color) (left : RBTree α) (value : α) (right : RBTree α) : RBTree α
deriving DecidableEq

namespace RBTree

/-- The `black` helper: build a Black node from components. -/
def black (l : RBTree α) (v : α) (r : RBTree α) : RBTree α := .node .black l v r

/-- `build_rotated_nodes`: the four subtrees `a,b,c,d` and three values
`x,y,z` of a red-red violation, in left-to-right order, reassembled as one Red
node over two Black nodes. -/
def build_rotated_nodes (a : RBTree α) (x : α) (b : RBTree α) (y : α)
    (c : RBTree α) (z : α) (d : RBTree α) : RBTree α :=
  .node .red (black a x b) y (black c z d)

/-- `balance`: when the node being rebuilt is Black, detect the four red-red
violation shapes in source order (left-left, left-right, right-left,
right-right) and rotate; otherwise rebuild the node unchanged. -/
def balance (color : Color) (left_tree : RBTree α) (value : α)
    (right_tree : RBTree α) : RBTree α :=
  match color, left_tree, value, right_tree with
  | .black, .node .red (.node .red a x b) y c, z, d => build_rotated_nodes a x b y c z d
  | .black, .node .red a x (.node .red b y c), z, d => build_rotated_nodes a x b y c z d
  | .black, a, x, .node .red (.node .red b y c) z d => build_rotated_nodes a x b y c z d
  | .black, a, x, .node .red b y (.node .red c z d) => build_rotated_nodes a x b y c z d
  | c, l, v, r => .node c l v r

/-- `ins`: descend the comparator path, insert a Red leaf at the `Empty`
position, rebalance each rebuilt ancestor; an equal value returns the node
found, unchanged. -/
def ins [LinearOrder α] (tree : RBTree α) (value : α) : RBTree α :=
  match tree with
  | .empty => .node .red .empty value .empty
  | .node c l v r =>
    match cmp value v with
    | .lt => balance c (ins l value) v r
    | .gt => balance c l v (ins r value)
    | .eq => .node c l v r

/-- Root color of a tree; an `Empty` tree counts as Black. -/
def rootColor : RBTree α → Color
  | .empty => .black
  | .node c _ _ _ => c

/-- The final step of `plus`: if the root is Red, force it Black. -/
def blacken : RBTree α → RBTree α
  | .node .red l v r => black l v r
  | t => t

/-- `Set::plus`: insert with `ins`, then force the root color to Black. -/
def plus [LinearOrder α] (t : RBTree α) (value : α) : RBTree α :=
  blacken (ins t value)

/-- `Set::contains`: binary search by the comparator. -/
def contains [LinearOrder α] (t : RBTree α) (value : α) : Bool :=
  match t with
  | .empty => false
  | .node _ l v r =>
    match cmp value v with
    | .lt => contains l value
    | .gt => contains r value
    | .eq => true

/-- `copy_to_vec` (the basis of `into_iter`): in-order traversal
(left, value, right). -/
def copy_to_vec : RBTree α → List α
  | .empty => []
  | .node _ l v r => copy_to_vec l ++ v :: copy_to_vec r

/-- The set built from a sequence of insertions starting at `empty`. -/
def fromList [LinearOrder α] (vs : List α) : RBTree α := vs.foldl plus .empty

/-- Number of stored elements. -/
def size : RBTree α → Nat
  | .empty => 0
  | .node _ l _ r => size l + size r + 1

/-- Tree height; 0 for the empty tree. -/
def height : RBTree α → Nat
  | .empty => 0
  | .node _ l _ r => max (height l) (height r) + 1

/-- No Red node has a Red child. -/
def NoRedRed : RBTree α → Prop
  | .empty => True
  | .node c l _ r =>
      (c = .red → rootColor l ≠ .red ∧ rootColor r ≠ .red) ∧ NoRedRed l ∧ NoRedRed r

/-- Uniform black-node count: `some n` if every path from the root to an
empty leaf position passes through exactly `n` Black nodes, else `none`. -/
def bheight : RBTree α → Option Nat
  | .empty => some 0
  | .node c l _ r =>
    match bheight l, bheight r with
    | some m, some n =>
      if m = n then some (if c = .black then m + 1 else m) else none
    | _, _ => none

/-- The red-black balance invariant: `IsRB t c n` says `t` is a valid
red-black tree with root color `c` and black-height `n`.  A Red node has
Black-rooted children of equal black-height; a Black node has children of
arbitrary root colors and equal black-height. -/
inductive IsRB : RBTree α → Color → Nat → Prop where
  | empty : IsRB .empty .black 0
  | red {l : RBTree α} {v : α} {r : RBTree α} {n : Nat} :
      IsRB l .black n → IsRB r .black n → IsRB (.node .red l v r) .red n
  | black {l : RBTree α} {v : α} {r : RBTree α} {c₁ c₂ : Color} {n : Nat} :
      IsRB l c₁ n → IsRB r c₂ n → IsRB (.node .black l v r) .black (n + 1)

/-- The relaxed invariant satisfied by `ins`: either a valid red-black tree,
or — only when `p` holds (the inserted-into node was Red) — a Red root whose
children are valid with equal black-height but whose own root colors are
unconstrained (a possible red-red violation at the very top). -/
inductive NearRB (p : Prop) : RBTree α → Nat → Prop where
  | ok {t : RBTree α} {c : Color} {n : Nat} : IsRB t c n → NearRB p t n
  | topRed {l : RBTree α} {v : α} {r : RBTree α} {c₁ c₂ : Color} {n : Nat} :
      p → IsRB l c₁ n → IsRB r c₂ n → NearRB p (.node .red l v r) n

theorem IsRB.rootColor_eq {t : RBTree α} {c : Color} {n : Nat} (h : IsRB t c n) :
    rootColor t = c := by
  cases h <;> rfl

theorem IsRB.shape_of_red {t : RBTree α} {n : Nat} (h : IsRB t .red n) :
    ∃ l v r, t = RBTree.node .red l v r := by
  cases h with
  | red _ _ => exact ⟨_, _, _, rfl⟩

theorem NearRB.resolve {p : Prop} {t : RBTree α} {n : Nat}
    (h : NearRB p t n) (hnp : ¬p) : ∃ c, IsRB t c n := by
  cases h with
  | ok hb => exact ⟨_, hb⟩
  | topRed hp _ _ => exact absurd hp hnp

/-- When the rebuilt node is Black and its left argument is almost-valid
(possible red-red violation at its root) while the right argument is valid,
`balance` produces a valid tree of black-height `n + 1`. -/
theorem NearRB.balance_left {p : Prop} {l : RBTree α} {v : α} {r : RBTree α}
    {c : Color} {n : Nat} (hl : NearRB p l n) (hr : IsRB r c n) :
    ∃ c', IsRB (balance .black l v r) c' (n + 1) := by
  unfold balance
  split
  · -- left-left violation shape
    cases hl with
    | ok h =>
      cases h with
      | red hL _ => cases hL
    | topRed _ hL hR =>
      cases hL with
      | red ha hb => exact ⟨_, .red (.black ha hb) (.black hR hr)⟩
  · -- left-right violation shape
    cases hl with
    | ok h =>
      cases h with
      | red _ hR => cases hR
    | topRed _ hL hR =>
      cases hR with
      | red hb hc => exact ⟨_, .red (.black hL hb) (.black hc hr)⟩
  · -- right-left shape: impossible, the right argument is a valid tree
    cases hr with
    | red hL _ => cases hL
  · -- right-right shape: impossible, the right argument is a valid tree
    cases hr with
    | red _ hR => cases hR
  · -- no violation: rebuild the Black node
    rename_i hno1 hno2 hno3 hno4
    cases hl with
    | ok h => exact ⟨_, .black h hr⟩
    | topRed hp hL hR =>
      rename_i l' v' r' c₁ c₂
      cases c₁ with
      | red =>
        obtain ⟨a, x, b, rfl⟩ := hL.shape_of_red
        exact ((hno1 a x b _ _ rfl rfl).elim)
      | black =>
        cases c₂ with
        | red =>
          obtain ⟨a, x, b, rfl⟩ := hR.shape_of_red
          exact ((hno2 _ _ a x b rfl rfl).elim)
        | black => exact ⟨_, .black (.red hL hR) hr⟩

/-- Symmetric version: valid left argument, almost-valid right argument. -/
theorem NearRB.balance_right {p : Prop} {l : RBTree α} {v : α} {r : RBTree α}
    {c : Color} {n : Nat} (hl : IsRB l c n) (hr : NearRB p r n) :
    ∃ c', IsRB (balance .black l v r) c' (n + 1) := by
  unfold balance
  split
  · -- left-left shape: impossible, the left argument is a valid tree
    cases hl with
    | red hL _ => cases hL
  · -- left-right shape: impossible, the left argument is a valid tree
    cases hl with
    | red _ hR => cases hR
  · -- right-left violation shape
    cases hr with
    | ok h =>
      cases h with
      | red hL _ => cases hL
    | topRed _ hL hR =>
      cases hL with
      | red hb hc => exact ⟨_, .red (.black hl hb) (.black hc hR)⟩
  · -- right-right violation shape
    cases hr with
    | ok h =>
      cases h with
      | red _ hR => cases hR
    | topRed _ hL hR =>
      cases hR with
      | red hc hd => exact ⟨_, .red (.black hl hL) (.black hc hd)⟩
  · -- no violation: rebuild the Black node
    rename_i hno1 hno2 hno3 hno4
    cases hr with
    | ok h => exact ⟨_, .black hl h⟩
    | topRed hp hL hR =>
      rename_i l' v' r' c₁ c₂
      cases c₁ with
      | red =>
        obtain ⟨a, x, b, rfl⟩ := hL.shape_of_red
        exact ((hno3 a x b _ _ rfl rfl).elim)
      | black =>
        cases c₂ with
        | red =>
          obtain ⟨a, x, b, rfl⟩ := hR.shape_of_red
          exact ((hno4 _ _ a x b rfl rfl).elim)
        | black => exact ⟨_, .black hl (.red hL hR)⟩

/-- `balance` with a Red color never rotates. -/
theorem balance_of_red (l : RBTree α) (v : α) (r : RBTree α) :
    balance .red l v r = .node .red l v r := by
  unfold balance
  split <;> simp_all

/-- The balance invariant of `ins`: inserting into a valid tree yields a
valid tree, or — only when the root was Red — a tree with a possible red-red
violation at the very top, in both cases preserving the black-height. -/
theorem IsRB.ins_near [LinearOrder α] (x : α) {t : RBTree α} {c : Color} {n : Nat}
    (h : IsRB t c n) : NearRB (rootColor t = .red) (ins t x) n := by
  induction h with
  | empty => exact .ok (.red .empty .empty)
  | @red l v r m hl hr ihl ihr =>
    simp only [ins]
    split
    · rw [balance_of_red]
      obtain ⟨cl, hil⟩ := ihl.resolve (by rw [hl.rootColor_eq]; exact fun hh => nomatch hh)
      exact .topRed rfl hil hr
    · rw [balance_of_red]
      obtain ⟨cr, hir⟩ := ihr.resolve (by rw [hr.rootColor_eq]; exact fun hh => nomatch hh)
      exact .topRed rfl hl hir
    · exact .ok (.red hl hr)
  | @black l v r c₁ c₂ m hl hr ihl ihr =>
    simp only [ins]
    split
    · obtain ⟨c', hb⟩ := ihl.balance_left hr
      exact .ok hb
    · obtain ⟨c', hb⟩ := NearRB.balance_right hl ihr
      exact .ok hb
    · exact .ok (.black hl hr)

/-- Recoloring the root Black turns any near-valid tree into a valid
Black-rooted tree. -/
theorem NearRB.blacken_rb {p : Prop} {t : RBTree α} {n : Nat}
    (h : NearRB p t n) : ∃ n', IsRB (blacken t) .black n' := by
  cases h with
  | ok hb =>
    cases hb with
    | empty => exact ⟨0, .empty⟩
    | red hl hr => exact ⟨_, .black hl hr⟩
    | black hl hr => exact ⟨_, .black hl hr⟩
  | topRed hp hl hr => exact ⟨_, .black hl hr⟩

/-- `plus` maps valid trees to valid Black-rooted trees. -/
theorem plus_rb [LinearOrder α] {t : RBTree α} {c : Color} {n : Nat}
    (h : IsRB t c n) (x : α) : ∃ n', IsRB (plus t x) .black n' :=
  (h.ins_near x).blacken_rb

/-- Every set built by a sequence of insertions is a valid Black-rooted
red-black tree. -/
theorem fromList_rb [LinearOrder α] (vs : List α) :
    ∃ n, IsRB (fromList vs) .black n := by
  have aux : ∀ (vs : List α) (t : RBTree α) (n : Nat), IsRB t .black n →
      ∃ m, IsRB (vs.foldl plus t) .black m := by
    intro vs
    induction vs with
    | nil => exact fun t n h => ⟨n, h⟩
    | cons v vs ih =>
      intro t n h
      obtain ⟨n', h'⟩ := plus_rb h v
      exact ih _ _ h'
  exact aux vs .empty 0 .empty

theorem IsRB.noRedRed {t : RBTree α} {c : Color} {n : Nat} (h : IsRB t c n) :
    NoRedRed t := by
  induction h with
  | empty => trivial
  | red hl hr ihl ihr =>
    refine ⟨fun _ => ⟨?_, ?_⟩, ihl, ihr⟩
    · rw [hl.rootColor_eq]; exact fun hh => nomatch hh
    · rw [hr.rootColor_eq]; exact fun hh => nomatch hh
  | black hl hr ihl ihr =>
    refine ⟨fun hh => ?_, ihl, ihr⟩
    exact nomatch hh

theorem IsRB.bheight_eq {t : RBTree α} {c : Color} {n : Nat} (h : IsRB t c n) :
    bheight t = some n := by
  induction h with
  | empty => rfl
  | red hl hr ihl ihr => simp [bheight, ihl, ihr]
  | black hl hr ihl ihr => simp [bheight, ihl, ihr]

theorem IsRB.height_le {t : RBTree α} {c : Color} {n : Nat} (h : IsRB t c n) :
    height t ≤ 2 * n + 1 ∧ (c = .black → height t ≤ 2 * n) := by
  induction h with
  | empty => exact ⟨by simp [height], fun _ => by simp [height]⟩
  | red hl hr ihl ihr =>
    have h1 := ihl.2 rfl
    have h2 := ihr.2 rfl
    refine ⟨?_, fun hh => nomatch hh⟩
    simp only [height]
    have h3 := Nat.max_le.mpr ⟨h1, h2⟩
    omega
  | black hl hr ihl ihr =>
    have h1 := ihl.1
    have h2 := ihr.1
    have h3 := Nat.max_le.mpr ⟨h1, h2⟩
    refine ⟨?_, fun _ => ?_⟩ <;> simp only [height] <;> omega

theorem IsRB.size_lower {t : RBTree α} {c : Color} {n : Nat} (h : IsRB t c n) :
    2 ^ n ≤ size t + 1 := by
  induction h with
  | empty => simp [size]
  | red hl hr ihl ihr => simp only [size]; omega
  | @black l v r c₁ c₂ m hl hr ihl ihr =>
    have e : 2 ^ (m + 1) = 2 ^ m * 2 := pow_succ 2 m
    simp only [size]
    omega

/-- Height bound in the form stated by the specification. -/
theorem IsRB.height_le_log {t : RBTree α} {n : Nat} (h : IsRB t .black n) :
    height t ≤ 2 * Nat.log2 (size t + 1) := by
  have h1 := (h.height_le).2 rfl
  have h2 := h.size_lower
  have h3 : n ≤ Nat.log2 (size t + 1) := (Nat.le_log2 (by omega)).mpr h2
  omega

/-- All stored values satisfy `p`. -/
def All (p : α → Prop) : RBTree α → Prop
  | .empty => True
  | .node _ l v r => p v ∧ All p l ∧ All p r

/-- The binary-search-tree ordering invariant: at every node, everything in
the left subtree is smaller and everything in the right subtree is larger. -/
def Ordered [LinearOrder α] : RBTree α → Prop
  | .empty => True
  | .node _ l v r => All (· < v) l ∧ All (v < ·) r ∧ Ordered l ∧ Ordered r

theorem All.imp {p q : α → Prop} (h : ∀ a, p a → q a) :
    ∀ {t : RBTree α}, All p t → All q t := by
  intro t
  induction t with
  | empty => intro _; trivial
  | node c l v r ihl ihr =>
    rintro ⟨hv, hl, hr⟩
    exact ⟨h v hv, ihl hl, ihr hr⟩

theorem All_mem {p : α → Prop} :
    ∀ {t : RBTree α}, All p t → ∀ y ∈ copy_to_vec t, p y := by
  intro t
  induction t with
  | empty => intro _ y hy; simp [copy_to_vec] at hy
  | node c l v r ihl ihr =>
    rintro ⟨hv, hl, hr⟩ y hy
    simp only [copy_to_vec, List.mem_append, List.mem_cons] at hy
    rcases hy with hy | rfl | hy
    · exact ihl hl y hy
    · exact hv
    · exact ihr hr y hy

/-- The rotations of `balance` preserve the in-order traversal. -/
theorem copy_balance (c : Color) (l : RBTree α) (v : α) (r : RBTree α) :
    copy_to_vec (balance c l v r) = copy_to_vec l ++ v :: copy_to_vec r := by
  unfold balance
  split <;> simp [build_rotated_nodes, black, copy_to_vec]

theorem All_balance {p : α → Prop} {c : Color} {l : RBTree α} {v : α}
    {r : RBTree α} : All p (balance c l v r) ↔ p v ∧ All p l ∧ All p r := by
  unfold balance
  split <;> simp only [build_rotated_nodes, black, All] <;> tauto

theorem Ordered_balance [LinearOrder α] {c : Color} {l : RBTree α} {v : α}
    {r : RBTree α} (hl : Ordered l) (hr : Ordered r)
    (h1 : All (· < v) l) (h2 : All (v < ·) r) : Ordered (balance c l v r) := by
  unfold balance
  split
  · -- left-left: l = node red (node red a x b) y cc
    simp only [Ordered, All] at hl h1
    obtain ⟨⟨hxy, hay, hby⟩, hcy, ⟨hax, hxb, ha, hb⟩, hcc⟩ := hl
    obtain ⟨hyv, ⟨hxv, hav, hbv⟩, hcv⟩ := h1
    simp only [build_rotated_nodes, black, Ordered, All]
    exact ⟨⟨hxy, hay, hby⟩,
      ⟨hyv, hcy, All.imp (fun z hz => lt_trans hyv hz) h2⟩,
      ⟨hax, hxb, ha, hb⟩, ⟨hcv, h2, hcc, hr⟩⟩
  · -- left-right: l = node red a x (node red b y cc)
    simp only [Ordered, All] at hl h1
    obtain ⟨hax, ⟨hxy, hxb, hxc⟩, ha, ⟨hby, hyc, hb, hcc⟩⟩ := hl
    obtain ⟨hxv, hav, ⟨hyv, hbv, hcv⟩⟩ := h1
    simp only [build_rotated_nodes, black, Ordered, All]
    exact ⟨⟨hxy, All.imp (fun z hz => lt_trans hz hxy) hax, hby⟩,
      ⟨hyv, hyc, All.imp (fun z hz => lt_trans hyv hz) h2⟩,
      ⟨hax, hxb, ha, hb⟩, ⟨hcv, h2, hcc, hr⟩⟩
  · -- right-left: r = node red (node red b y cc) z d
    simp only [Ordered, All] at hr h2
    obtain ⟨⟨hyz, hbz, hcz⟩, hzd, ⟨hby, hyc, hb, hcc⟩, hd⟩ := hr
    obtain ⟨hvz, ⟨hvy, hvb, hvc⟩, hvd⟩ := h2
    simp only [build_rotated_nodes, black, Ordered, All]
    exact ⟨⟨hvy, All.imp (fun w hw => lt_trans hw hvy) h1, hby⟩,
      ⟨hyz, hyc, All.imp (fun w hw => lt_trans hyz hw) hzd⟩,
      ⟨h1, hvb, hl, hb⟩, ⟨hcz, hzd, hcc, hd⟩⟩
  · -- right-right: r = node red b y (node red cc z d)
    simp only [Ordered, All] at hr h2
    obtain ⟨hby, ⟨hyz, hyc, hyd⟩, hb, ⟨hcz, hzd, hcc, hd⟩⟩ := hr
    obtain ⟨hvy, hvb, ⟨hvz, hvc, hvd⟩⟩ := h2
    simp only [build_rotated_nodes, black, Ordered, All]
    exact ⟨⟨hvy, All.imp (fun w hw => lt_trans hw hvy) h1, hby⟩,
      ⟨hyz, hyc, hyd⟩, ⟨h1, hvb, hl, hb⟩, ⟨hcz, hzd, hcc, hd⟩⟩
  · exact ⟨h1, h2, hl, hr⟩

theorem All_ins [LinearOrder α] {p : α → Prop} {x : α} (hx : p x) :
    ∀ {t : RBTree α}, All p t → All p (RBTree.ins t x) := by
  intro t
  induction t with
  | empty => intro _; exact ⟨hx, trivial, trivial⟩
  | node c l v r ihl ihr =>
    rintro ⟨hv, hl, hr⟩
    simp only [RBTree.ins]
    split
    · exact All_balance.mpr ⟨hv, ihl hl, hr⟩
    · exact All_balance.mpr ⟨hv, hl, ihr hr⟩
    · exact ⟨hv, hl, hr⟩

theorem Ordered_ins [LinearOrder α] {x : α} :
    ∀ {t : RBTree α}, Ordered t → Ordered (RBTree.ins t x) := by
  intro t
  induction t with
  | empty =>
    intro _
    exact ⟨trivial, trivial, trivial, trivial⟩
  | node c l v r ihl ihr =>
    rintro ⟨h1, h2, hl, hr⟩
    simp only [RBTree.ins]
    split
    next heq =>
      exact Ordered_balance (ihl hl) hr
        (All_ins (p := (· < v)) ((cmp_eq_lt_iff x v).mp heq) h1) h2
    next heq =>
      exact Ordered_balance hl (ihr hr) h1
        (All_ins (p := (v < ·)) ((cmp_eq_gt_iff x v).mp heq) h2)
    next heq => exact ⟨h1, h2, hl, hr⟩

theorem mem_ins [LinearOrder α] {x y : α} :
    ∀ {t : RBTree α},
      (y ∈ copy_to_vec (RBTree.ins t x) ↔ y = x ∨ y ∈ copy_to_vec t) := by
  intro t
  induction t with
  | empty => simp [RBTree.ins, copy_to_vec]
  | node c l v r ihl ihr =>
    simp only [RBTree.ins]
    split
    next heq =>
      rw [copy_balance]
      simp only [copy_to_vec, List.mem_append, List.mem_cons, ihl]
      tauto
    next heq =>
      rw [copy_balance]
      simp only [copy_to_vec, List.mem_append, List.mem_cons, ihr]
      tauto
    next heq =>
      have hxv : x = v := (cmp_eq_eq_iff x v).mp heq
      subst hxv
      simp only [copy_to_vec, List.mem_append, List.mem_cons]
      tauto

/-- Correctness of the binary search in `contains` on ordered trees. -/
theorem contains_iff_mem [LinearOrder α] {y : α} :
    ∀ {t : RBTree α}, Ordered t →
      (contains t y = true ↔ y ∈ copy_to_vec t) := by
  intro t
  induction t with
  | empty => intro _; simp [contains, copy_to_vec]
  | node c l v r ihl ihr =>
    rintro ⟨h1, h2, hl, hr⟩
    simp only [contains]
    split
    next heq =>
      have hyv : y < v := (cmp_eq_lt_iff y v).mp heq
      rw [ihl hl]
      simp only [copy_to_vec, List.mem_append, List.mem_cons]
      constructor
      · exact fun h => Or.inl h
      · rintro (h | rfl | h)
        · exact h
        · exact absurd hyv (lt_irrefl _)
        · exact absurd hyv (lt_asymm (All_mem h2 y h))
    next heq =>
      have hvy : v < y := (cmp_eq_gt_iff y v).mp heq
      rw [ihr hr]
      simp only [copy_to_vec, List.mem_append, List.mem_cons]
      constructor
      · exact fun h => Or.inr (Or.inr h)
      · rintro (h | rfl | h)
        · exact absurd hvy (lt_asymm (All_mem h1 y h))
        · exact absurd hvy (lt_irrefl _)
        · exact h
    next heq =>
      have hyv : y = v := (cmp_eq_eq_iff y v).mp heq
      subst hyv
      simp [copy_to_vec]

/-- The in-order traversal of an ordered tree is strictly sorted (hence also
duplicate-free). -/
theorem Ordered.sorted_copy [LinearOrder α] :
    ∀ {t : RBTree α}, Ordered t → List.Sorted (· < ·) (copy_to_vec t) := by
  intro t
  induction t with
  | empty => intro _; simp [copy_to_vec]
  | node c l v r ihl ihr =>
    rintro ⟨h1, h2, hl, hr⟩
    simp only [copy_to_vec]
    refine List.pairwise_append.mpr ⟨ihl hl, ?_, ?_⟩
    · exact List.pairwise_cons.mpr ⟨fun b hb => All_mem h2 b hb, ihr hr⟩
    · intro a ha b hb
      rcases List.mem_cons.mp hb with rfl | hb
      · exact All_mem h1 a ha
      · exact lt_trans (All_mem h1 a ha) (All_mem h2 b hb)

@[simp] theorem copy_blacken (t : RBTree α) :
    copy_to_vec (blacken t) = copy_to_vec t := by
  unfold blacken
  split
  · simp [copy_to_vec, black]
  · rfl

theorem Ordered.blacken [LinearOrder α] {t : RBTree α} (h : Ordered t) :
    Ordered (RBTree.blacken t) := by
  unfold RBTree.blacken
  split
  · exact h
  · exact h

theorem Ordered.plus [LinearOrder α] {x : α} {t : RBTree α} (h : Ordered t) :
    Ordered (RBTree.plus t x) := Ordered.blacken (Ordered_ins h)

theorem mem_plus [LinearOrder α] {x y : α} {t : RBTree α} :
    y ∈ copy_to_vec (RBTree.plus t x) ↔ y = x ∨ y ∈ copy_to_vec t := by
  unfold RBTree.plus
  rw [copy_blacken]
  exact mem_ins

theorem fromList_ordered [LinearOrder α] (vs : List α) : Ordered (fromList vs) := by
  have aux : ∀ (vs : List α) (t : RBTree α), Ordered t →
      Ordered (vs.foldl RBTree.plus t) := by
    intro vs
    induction vs with
    | nil => exact fun t h => h
    | cons v vs ih => intro t h; exact ih _ h.plus
  exact aux vs .empty trivial

theorem mem_fromList [LinearOrder α] (vs : List α) (y : α) :
    y ∈ copy_to_vec (fromList vs) ↔ y ∈ vs := by
  have aux : ∀ (vs : List α) (t : RBTree α),
      (y ∈ copy_to_vec (vs.foldl RBTree.plus t) ↔ y ∈ vs ∨ y ∈ copy_to_vec t) := by
    intro vs
    induction vs with
    | nil => intro t; simp
    | cons v vs ih =>
      intro t
      rw [List.foldl_cons, ih, mem_plus]
      simp only [List.mem_cons]
      tauto
  have h := aux vs .empty
  simpa [copy_to_vec] using h

theorem rootColor_blacken (t : RBTree α) : rootColor (blacken t) = .black := by
  unfold blacken
  split
  · rfl
  · rename_i hno
    cases t with
    | empty => rfl
    | node c l v r =>
      cases c with
      | red => exact ((hno l v r rfl).elim)
      | black => rfl

/-- On shape-valid children, `balance` never rotates (the black-heights of
the two hypotheses are unrelated; only the absence of red-red shapes is
used). -/
theorem balance_eq_of_rb {c : Color} {l : RBTree α} {v : α} {r : RBTree α}
    {c₁ c₂ : Color} {n₁ n₂ : Nat} (hl : IsRB l c₁ n₁) (hr : IsRB r c₂ n₂) :
    balance c l v r = .node c l v r := by
  unfold balance
  split
  · cases hl with
    | red hL _ => cases hL
  · cases hl with
    | red _ hR => cases hR
  · cases hr with
    | red hL _ => cases hL
  · cases hr with
    | red _ hR => cases hR
  · rfl

/-- Inserting a value already stored in a valid ordered tree returns the tree
itself, node for node. -/
theorem ins_eq_self [LinearOrder α] {x : α} :
    ∀ (t : RBTree α) (c : Color) (n : Nat), IsRB t c n → Ordered t →
      x ∈ copy_to_vec t → RBTree.ins t x = t := by
  intro t
  induction t with
  | empty => intro c n _ _ hx; simp [copy_to_vec] at hx
  | node cc l v r ihl ihr =>
    intro c n hb ho hx
    obtain ⟨h1, h2, hl, hr⟩ := ho
    have hch : ∃ c₁ c₂ m, IsRB l c₁ m ∧ IsRB r c₂ m := by
      cases hb with
      | red hL hR => exact ⟨_, _, _, hL, hR⟩
      | black hL hR => exact ⟨_, _, _, hL, hR⟩
    obtain ⟨c₁, c₂, m, hL, hR⟩ := hch
    simp only [RBTree.ins]
    split
    next heq =>
      have hxv : x < v := (cmp_eq_lt_iff x v).mp heq
      have hxl : x ∈ copy_to_vec l := by
        simp only [copy_to_vec, List.mem_append, List.mem_cons] at hx
        rcases hx with h | rfl | h
        · exact h
        · exact absurd hxv (lt_irrefl _)
        · exact absurd hxv (lt_asymm (All_mem h2 x h))
      rw [ihl c₁ m hL hl hxl]
      exact balance_eq_of_rb hL hR
    next heq =>
      have hvx : v < x := (cmp_eq_gt_iff x v).mp heq
      have hxr : x ∈ copy_to_vec r := by
        simp only [copy_to_vec, List.mem_append, List.mem_cons] at hx
        rcases hx with h | rfl | h
        · exact absurd hvx (lt_asymm (All_mem h1 x h))
        · exact absurd hvx (lt_irrefl _)
        · exact h
      rw [ihr c₂ m hR hr hxr]
      exact balance_eq_of_rb hL hR
    next heq => rfl

/-- On a Black-rooted valid ordered tree, `plus` of a stored value is the
identity. -/
theorem plus_eq_self [LinearOrder α] {x : α} {t : RBTree α} {n : Nat}
    (hb : IsRB t .black n) (ho : Ordered t) (hx : x ∈ copy_to_vec t) :
    RBTree.plus t x = t := by
  unfold RBTree.plus
  rw [ins_eq_self t .black n hb ho hx]
  cases hb with
  | empty => rfl
  | black hL hR => rfl

end RBTree

/-- Claim C7: for every sequence of insertions `vs` into an initially empty
set, `contains` returns `true` exactly on the values of `vs`: true for each
inserted value, false for anything not (comparator-)equal to one. -/
theorem C7_contains_iff_inserted [LinearOrder α] (vs : List α) (x : α) :
    RBTree.contains (RBTree.fromList vs) x = true ↔ x ∈ vs := by
  rw [RBTree.contains_iff_mem (RBTree.fromList_ordered vs), RBTree.mem_fromList]

/-- Claim C8: iterating a set (in-order traversal: left, value, right) yields
the strictly ascending — hence duplicate-free — sequence of its stored
elements; in particular inserting 5, 3, 8, 1, 4 into the empty set and
iterating yields `[1, 3, 4, 5, 8]`. -/
theorem C8_inorder_ascending :
    (∀ (β : Type) [LinearOrder β] (vs : List β),
        List.Sorted (· < ·) (RBTree.copy_to_vec (RBTree.fromList vs))) ∧
    RBTree.copy_to_vec (RBTree.fromList ([5, 3, 8, 1, 4] : List Int))
      = [1, 3, 4, 5, 8] := by
  constructor
  · intro β _ vs
    exact RBTree.Ordered.sorted_copy (RBTree.fromList_ordered vs)
  · decide

/-- Claim C6: inserting a value already present in a set built by `plus`
insertions returns a structurally equal set (in fact the very same tree), so
in particular its iteration sequence is unchanged. -/
theorem C6_plus_idempotent [LinearOrder α] (vs : List α) (v : α)
    (hv : RBTree.contains (RBTree.fromList vs) v = true) :
    RBTree.plus (RBTree.fromList vs) v = RBTree.fromList vs := by
  obtain ⟨n, hb⟩ := RBTree.fromList_rb vs
  have ho := RBTree.fromList_ordered vs
  exact RBTree.plus_eq_self hb ho ((RBTree.contains_iff_mem ho).mp hv)

/-- Witness for C6 at a concrete input. -/
theorem C6_plus_idempotent_witness :
    RBTree.contains (RBTree.fromList ([2, 1] : List Int)) 1 = true ∧
    RBTree.plus (RBTree.fromList ([2, 1] : List Int)) 1
      = RBTree.fromList ([2, 1] : List Int) :=
  ⟨by decide, C6_plus_idempotent [2, 1] 1 (by decide)⟩

/-- Claim C2: after any sequence of `plus` insertions starting from the empty
tree, no Red node has a Red child, every root-to-empty-leaf path passes
through the same number of Black nodes, the height is at most
`2 * log2(size + 1)`, and the root is Black (indeed `plus` always returns a
Black-rooted tree). -/
theorem C2_rb_invariants [LinearOrder α] (vs : List α) :
    RBTree.NoRedRed (RBTree.fromList vs) ∧
    (∃ n, RBTree.bheight (RBTree.fromList vs) = some n) ∧
    RBTree.height (RBTree.fromList vs)
      ≤ 2 * Nat.log2 (RBTree.size (RBTree.fromList vs) + 1) ∧
    RBTree.rootColor (RBTree.fromList vs) = .black ∧
    (∀ (t : RBTree α) (v : α), RBTree.rootColor (RBTree.plus t v) = .black) := by
  obtain ⟨n, hb⟩ := RBTree.fromList_rb vs
  exact ⟨hb.noRedRed, ⟨n, hb.bheight_eq⟩, hb.height_le_log, hb.rootColor_eq,
    fun t v => RBTree.rootColor_blacken _⟩

end Fundata
